import Mathlib

/-!
Shallow embedding of the core pipeline of `src/main.py` (image-to-HTML
extractor): the inline-markdown converter `markdown_inline_to_html`, the
response extractor `extract_json_from_model_output`, the schema normalizer
`coerce_to_sections_schema` and the renderer `build_html_from_sections`.

Python strings are modelled as `List Char`.  Code that can raise a Python
exception is modelled with `Option` (`none` = an exception escapes).
-/

namespace Extrator

/-- Characters treated as whitespace by `str.strip` / `\s` (ASCII part). -/
def isPySpace (c : Char) : Bool :=
  c == ' ' || c == Char.ofNat 9 || c == Char.ofNat 10 || c == Char.ofNat 13 ||
    c == Char.ofNat 11 || c == Char.ofNat 12

/-- Model of Python `str.strip()`: drop whitespace from both ends. -/
def pyStrip (s : List Char) : List Char :=
  ((s.dropWhile isPySpace).reverse.dropWhile isPySpace).reverse

/-- The double-quote character. -/
def qChar : Char := Char.ofNat 34

/-- The single-quote character. -/
def aposChar : Char := Char.ofNat 39

/-- The backslash character. -/
def bsChar : Char := Char.ofNat 92

/-- The backtick character. -/
def btick : Char := Char.ofNat 96

/-- The opening curly brace character. -/
def lbrace : Char := Char.ofNat 123

/-- The closing curly brace character. -/
def rbrace : Char := Char.ofNat 125

/-- Model of Python `html.escape` on a single character (quote=True default). -/
def escapeChar (c : Char) : List Char :=
  if c = '&' then "&amp;".toList
  else if c = '<' then "&lt;".toList
  else if c = '>' then "&gt;".toList
  else if c = qChar then "&quot;".toList
  else if c = aposChar then "&#x27;".toList
  else [c]

/-- Model of Python `html.escape`: the five special characters are replaced,
everything else is kept.  (The sequential `str.replace` calls of the library
function are equivalent to this per-character map, since no replacement text
contains a character replaced later.) -/
def htmlEscape : List Char → List Char
  | [] => []
  | c :: cs => escapeChar c ++ htmlEscape cs

/-- Lazy-group matcher for a pattern `D(.+?)D`: given the closing delimiter
`close` and the text after the opening delimiter, finds the shortest
non-empty body of non-newline characters followed by `close`.  Returns the
body and the text after the closing delimiter. -/
def lazyBody (close : List Char) : List Char → Option (List Char × List Char)
  | [] => none
  | c :: cs =>
    if c = Char.ofNat 10 then none
    else if close.isPrefixOf cs then some ([c], cs.drop close.length)
    else
      match lazyBody close cs with
      | some (b, r) => some (c :: b, r)
      | none => none

/-- Fueled left-to-right global substitution of `D(.+?)D` by `pre ++ body ++
post`, the model of `re.sub(r"D(.+?)D", pre + r"\1" + post, s)` for a literal
delimiter `D`.  `reSub` below supplies adequate fuel. -/
def reSubF (d pre post : List Char) : Nat → List Char → List Char
  | _, [] => []
  | 0, s => s
  | f + 1, c :: cs =>
    if d.isPrefixOf (c :: cs) then
      match lazyBody d ((c :: cs).drop d.length) with
      | some (b, r) => pre ++ b ++ post ++ reSubF d pre post f r
      | none => c :: reSubF d pre post f cs
    else c :: reSubF d pre post f cs

/-- Global regex substitution (see `reSubF`). -/
def reSub (d pre post s : List Char) : List Char :=
  reSubF d pre post s.length s

/-- The delimiter of `***X***`. -/
def star3 : List Char := '*' :: '*' :: '*' :: []

/-- The delimiter of `**X**`. -/
def star2 : List Char := '*' :: '*' :: []

/-- The delimiter of `*X*`. -/
def star1 : List Char := '*' :: []

/-- Replacement prefix for bold+italic. -/
def biOpen : List Char := "<strong><em>".toList

/-- Replacement suffix for bold+italic. -/
def biClose : List Char := "</em></strong>".toList

/-- Replacement prefix for bold. -/
def bOpen : List Char := "<strong>".toList

/-- Replacement suffix for bold. -/
def bClose : List Char := "</strong>".toList

/-- Replacement prefix for italic. -/
def emOpen : List Char := "<em>".toList

/-- Replacement suffix for italic. -/
def emClose : List Char := "</em>".toList

/-- Model of `markdown_inline_to_html` (src/main.py, lines 21-41) on a string
argument: HTML-escape first, then substitute `***X***`, then `**X**`, then
`*X*`.  The `text is None` early return is modelled at the call sites, which
pass `None` only through `mdJson`. -/
def markdown_inline_to_html (text : List Char) : List Char :=
  reSub star1 emOpen emClose
    (reSub star2 bOpen bClose
      (reSub star3 biOpen biClose (htmlEscape text)))

/-- Parsed JSON values, the result type of the model of `json.loads`.
Numbers keep the lexeme split into sign, integer digits, fraction digits and
optional exponent (sign, digits); the float value itself is never needed,
only whether the number is zero (Python truthiness). -/
inductive Json where
  | null : Json
  | bool (b : Bool) : Json
  | num (neg : Bool) (ip fp : List Char) (ex : Option (Bool × List Char)) : Json
  | str (s : List Char) : Json
  | arr (elems : List Json) : Json
  | obj (pairs : List (List Char × Json)) : Json

/-- Key lookup in an object, last binding wins (Python dict semantics when an
object is built from a pair sequence; parsed objects have unique keys). -/
def lookupLast : List (List Char × Json) → List Char → Option Json
  | [], _ => none
  | kv :: rest, k =>
    match lookupLast rest k with
    | some v => some v
    | none => if kv.1 = k then some kv.2 else none

/-- Key membership in an object. -/
def hasKey (kvs : List (List Char × Json)) (k : List Char) : Bool :=
  kvs.any (fun kv => kv.1 = k)

/-- Model of Python dict assignment `d[k] = v`: overwrite in place if the key
exists, else append. -/
def setKey : List (List Char × Json) → List Char → Json → List (List Char × Json)
  | [], k, v => [(k, v)]
  | kv :: rest, k, v =>
    if kv.1 = k then (kv.1, v) :: rest else kv :: setKey rest k v

/-- Python truthiness of a JSON value. -/
def pyTruthy : Json → Bool
  | Json.null => false
  | Json.bool b => b
  | Json.num _ ip fp _ => (ip ++ fp).any (fun c => c ≠ '0')
  | Json.str s => !s.isEmpty
  | Json.arr l => !l.isEmpty
  | Json.obj kvs => !kvs.isEmpty

/-- Python `==` comparison of a JSON value against a string literal: only a
string compares equal, every other type yields `False`. -/
def jsonEqStr (v : Json) (s : List Char) : Bool :=
  match v with
  | Json.str t => t = s
  | _ => false

/-- Whether a value is JSON null (Python `None`). -/
def isNull : Json → Bool
  | Json.null => true
  | _ => false

/-- Model of Python iteration `for x in v`: lists yield their elements,
strings their characters (as length-1 strings), dicts their keys; anything
else raises `TypeError` (`none`). -/
def pyIter : Json → Option (List Json)
  | Json.arr l => some l
  | Json.str s => some (s.map (fun c => Json.str [c]))
  | Json.obj kvs => some (kvs.map (fun kv => Json.str kv.1))
  | _ => none

/-- Map a fallible function over a list, failing if any element fails
(models a Python loop whose body may raise). -/
def optMap (f : α → Option β) : List α → Option (List β)
  | [] => some []
  | x :: xs =>
    match f x with
    | some y => (optMap f xs).map (fun ys => y :: ys)
    | none => none

/-- Substring membership, the model of Python `needle in haystack` on
strings. -/
def isSubstr (pat : List Char) : List Char → Bool
  | [] => pat.isEmpty
  | c :: cs => pat.isPrefixOf (c :: cs) || isSubstr pat cs

/-- JSON whitespace (the characters skipped by Python's json decoder). -/
def isJWs (c : Char) : Bool :=
  c == ' ' || c == Char.ofNat 9 || c == Char.ofNat 10 || c == Char.ofNat 13

/-- Skip JSON whitespace. -/
def skipJWs (s : List Char) : List Char := s.dropWhile isJWs

/-- Decimal digit test. -/
def isDigit (c : Char) : Bool := '0' ≤ c && c ≤ '9'

/-- Value of a hexadecimal digit, if any. -/
def hexDigit (c : Char) : Option Nat :=
  if '0' ≤ c ∧ c ≤ '9' then some (c.toNat - 48)
  else if 'a' ≤ c ∧ c ≤ 'f' then some (c.toNat - 87)
  else if 'A' ≤ c ∧ c ≤ 'F' then some (c.toNat - 55)
  else none

/-- Parse the remainder of a JSON string literal (after the opening quote):
returns the decoded characters and the rest of the input.  Escapes and
surrogate pairs follow the json module; unescaped control characters are
rejected (strict mode). -/
def parseStrF : Nat → List Char → Option (List Char × List Char)
  | 0, _ => none
  | _ + 1, [] => none
  | f + 1, c :: cs =>
    if c = qChar then some ([], cs)
    else if c = bsChar then
      match cs with
      | [] => none
      | e :: cs2 =>
        if e = qChar then (parseStrF f cs2).map (fun p => (qChar :: p.1, p.2))
        else if e = bsChar then (parseStrF f cs2).map (fun p => (bsChar :: p.1, p.2))
        else if e = '/' then (parseStrF f cs2).map (fun p => ('/' :: p.1, p.2))
        else if e = 'b' then (parseStrF f cs2).map (fun p => (Char.ofNat 8 :: p.1, p.2))
        else if e = 'f' then (parseStrF f cs2).map (fun p => (Char.ofNat 12 :: p.1, p.2))
        else if e = 'n' then (parseStrF f cs2).map (fun p => (Char.ofNat 10 :: p.1, p.2))
        else if e = 'r' then (parseStrF f cs2).map (fun p => (Char.ofNat 13 :: p.1, p.2))
        else if e = 't' then (parseStrF f cs2).map (fun p => (Char.ofNat 9 :: p.1, p.2))
        else if e = 'u' then
          match cs2 with
          | h1 :: h2 :: h3 :: h4 :: rest =>
            match hexDigit h1, hexDigit h2, hexDigit h3, hexDigit h4 with
            | some a, some b, some c1, some d1 =>
              let n := 4096 * a + 256 * b + 16 * c1 + d1
              if 55296 ≤ n ∧ n ≤ 56319 then
                match rest with
                | e2 :: u2 :: g1 :: g2 :: g3 :: g4 :: rest2 =>
                  if e2 = bsChar ∧ u2 = 'u' then
                    match hexDigit g1, hexDigit g2, hexDigit g3, hexDigit g4 with
                    | some a2, some b2, some c2, some d2 =>
                      let m := 4096 * a2 + 256 * b2 + 16 * c2 + d2
                      if 56320 ≤ m ∧ m ≤ 57343 then
                        (parseStrF f rest2).map (fun p =>
                          (Char.ofNat (65536 + (n - 55296) * 1024 + (m - 56320)) :: p.1, p.2))
                      else (parseStrF f rest).map (fun p => (Char.ofNat n :: p.1, p.2))
                    | _, _, _, _ => (parseStrF f rest).map (fun p => (Char.ofNat n :: p.1, p.2))
                  else (parseStrF f rest).map (fun p => (Char.ofNat n :: p.1, p.2))
                | _ => (parseStrF f rest).map (fun p => (Char.ofNat n :: p.1, p.2))
              else (parseStrF f rest).map (fun p => (Char.ofNat n :: p.1, p.2))
            | _, _, _, _ => none
          | _ => none
        else none
    else if c.toNat < 32 then none
    else (parseStrF f cs).map (fun p => (c :: p.1, p.2))

/-- Parse a JSON string literal body (see `parseStrF`); each step consumes at
least one character, so `length + 1` fuel is always sufficient. -/
def parseStr (s : List Char) : Option (List Char × List Char) :=
  parseStrF (s.length + 1) s

/-- Parse a JSON number per the json module's NUMBER_RE:
`(-?(0|[1-9][0-9]*))(\.[0-9]+)?([eE][-+]?[0-9]+)?`. -/
def parseNum (s : List Char) : Option (Json × List Char) :=
  let signed := match s with
    | c :: cs => if c = '-' then (true, cs) else (false, s)
    | [] => (false, s)
  match signed.2 with
  | [] => none
  | c :: cs =>
    if ¬ (isDigit c) then none
    else
      let ipRest : List Char × List Char :=
        if c = '0' then (['0'], cs)
        else (c :: cs.takeWhile isDigit, cs.dropWhile isDigit)
      let fpRest : List Char × List Char :=
        match ipRest.2 with
        | '.' :: ds =>
          if (ds.takeWhile isDigit).isEmpty then ([], ipRest.2)
          else (ds.takeWhile isDigit, ds.dropWhile isDigit)
        | _ => ([], ipRest.2)
      let exRest : Option (Bool × List Char) × List Char :=
        match fpRest.2 with
        | e :: es =>
          if e = 'e' ∨ e = 'E' then
            let sgn := match es with
              | '+' :: es2 => (false, es2)
              | '-' :: es2 => (true, es2)
              | _ => (false, es)
            if (sgn.2.takeWhile isDigit).isEmpty then (none, fpRest.2)
            else (some (sgn.1, sgn.2.takeWhile isDigit), sgn.2.dropWhile isDigit)
          else (none, fpRest.2)
        | [] => (none, fpRest.2)
      some (Json.num signed.1 ipRest.1 fpRest.1 exRest.1, exRest.2)

mutual

/-- Fueled recursive-descent JSON value parser, the model of the json
module's scanner.  `jsonLoads` supplies ample fuel. -/
def parseValue : Nat → List Char → Option (Json × List Char)
  | 0, _ => none
  | f + 1, s0 =>
    let s := skipJWs s0
    match s with
    | [] => none
    | c :: rest =>
      if c = '[' then
        let r1 := skipJWs rest
        match r1 with
        | c2 :: r2 => if c2 = ']' then some (Json.arr [], r2) else parseElems f r1 []
        | [] => none
      else if c = lbrace then
        let r1 := skipJWs rest
        match r1 with
        | c2 :: r2 => if c2 = rbrace then some (Json.obj [], r2) else parseMembers f r1 []
        | [] => none
      else if c = qChar then (parseStrF f rest).map (fun p => (Json.str p.1, p.2))
      else if ("null".toList).isPrefixOf s then some (Json.null, s.drop 4)
      else if ("true".toList).isPrefixOf s then some (Json.bool true, s.drop 4)
      else if ("false".toList).isPrefixOf s then some (Json.bool false, s.drop 5)
      else parseNum s

/-- Array elements, after at least one element is known to be present. -/
def parseElems : Nat → List Char → List Json → Option (Json × List Char)
  | 0, _, _ => none
  | f + 1, s, acc =>
    match parseValue f s with
    | none => none
    | some (v, r0) =>
      match skipJWs r0 with
      | c :: r2 =>
        if c = ',' then parseElems f r2 (acc ++ [v])
        else if c = ']' then some (Json.arr (acc ++ [v]), r2)
        else none
      | [] => none

/-- Object members, after at least one member is known to be present. -/
def parseMembers : Nat → List Char → List (List Char × Json) → Option (Json × List Char)
  | 0, _, _ => none
  | f + 1, s, acc =>
    match s with
    | c :: rest =>
      if c = qChar then
        match parseStr rest with
        | none => none
        | some (k, r1) =>
          match skipJWs r1 with
          | c2 :: r2 =>
            if c2 = ':' then
              match parseValue f r2 with
              | none => none
              | some (v, r3) =>
                let acc2 := setKey acc k v
                match skipJWs r3 with
                | c3 :: r4 =>
                  if c3 = ',' then
                    match skipJWs r4 with
                    | c4 :: r5 => if c4 = qChar then parseMembers f (c4 :: r5) acc2 else none
                    | [] => none
                  else if c3 = rbrace then some (Json.obj acc2, r4)
                  else none
                | [] => none
            else none
          | [] => none
      else none
    | [] => none

end

/-- Model of `json.loads`: parse one value, then require only whitespace
after it. -/
def jsonLoads (s : List Char) : Option Json :=
  match parseValue (2 * s.length + 2) s with
  | some (v, rest) => if (skipJWs rest).isEmpty then some v else none
  | none => none

/-- Three backticks, the fence delimiter. -/
def tick3 : List Char := btick :: btick :: btick :: []

/-- Lazy body of the fence regex: collects characters until a maximal
whitespace run followed by three backticks; the collected group excludes that
trailing whitespace, mirroring the lazy group of
`` ```(?:json)?\s*([\s\S]*?)\s*``` ``. -/
def fenceBody : List Char → Option (List Char)
  | [] => none
  | c :: cs =>
    if tick3.isPrefixOf ((c :: cs).dropWhile isPySpace) then some []
    else (fenceBody cs).map (fun g => c :: g)

/-- Attempt to match the fence regex at the start of the text: three
backticks, an optional literal `json` tag, greedy whitespace, then the lazy
group. -/
def fenceAt (s : List Char) : Option (List Char) :=
  if tick3.isPrefixOf s then
    let t0 := s.drop 3
    let t1 := if ("json".toList).isPrefixOf t0 then t0.drop 4 else t0
    fenceBody (t1.dropWhile isPySpace)
  else none

/-- Model of `re.search` for the fence pattern: try every position from the
left, return the first match's group. -/
def findFence : List Char → Option (List Char)
  | [] => none
  | c :: cs =>
    match fenceAt (c :: cs) with
    | some g => some g
    | none => findFence cs

/-- Index of the first occurrence of a character. -/
def firstIdx (c : Char) : List Char → Option Nat
  | [] => none
  | x :: xs => if x = c then some 0 else (firstIdx c xs).map (fun i => i + 1)

/-- Index of the last occurrence of a character. -/
def lastIdx (c : Char) (s : List Char) : Option Nat :=
  (firstIdx c s.reverse).map (fun i => s.length - 1 - i)

/-- Model of Python `str.find`: first index or `-1`. -/
def pyFind (s : List Char) (c : Char) : Int :=
  match firstIdx c s with
  | some i => (i : Int)
  | none => -1

/-- Model of Python `str.rfind`: last index or `-1`. -/
def pyRfind (s : List Char) (c : Char) : Int :=
  match lastIdx c s with
  | some i => (i : Int)
  | none => -1

/-- Normalize a Python slice index against a length (negative indices count
from the end, then both are clamped to `[0, n]`). -/
def pyIdx (n : Nat) (i : Int) : Nat :=
  if i < 0 then (if i + n < 0 then 0 else (i + n).toNat) else min i.toNat n

/-- Model of the Python slice `s[a:b]`. -/
def pySlice (s : List Char) (a b : Int) : List Char :=
  (s.take (pyIdx s.length b)).drop (pyIdx s.length a)

/-- Candidate substring selected by `extract_json_from_model_output` before
parsing: the stripped fence group if a fence matches, otherwise the
bracket-to-bracket slice of the stripped text. -/
def selectCandidate (text : List Char) : List Char :=
  match findFence (pyStrip text) with
  | some g => pyStrip g
  | none =>
    if ('[' :: []).isPrefixOf (pyStrip text) then
      pySlice (pyStrip text) (pyFind (pyStrip text) '[') (pyRfind (pyStrip text) ']' + 1)
    else
      pySlice (pyStrip text) (pyFind (pyStrip text) lbrace) (pyRfind (pyStrip text) rbrace + 1)

/-- The two failure modes of the extractor: the explicit
`json.JSONDecodeError("empty", "", 0)` raised on empty input, and the decode
error raised by `json.loads` (which carries the offending document). -/
inductive ExtractError where
  | emptyResponse : ExtractError
  | malformedJson (candidate : List Char) : ExtractError

/-- Model of `extract_json_from_model_output` (src/main.py, lines 44-62). -/
def extract_json_from_model_output (text : List Char) : Except ExtractError Json :=
  if text.isEmpty then Except.error ExtractError.emptyResponse
  else
    let c := selectCandidate text
    match jsonLoads c with
    | some v => Except.ok v
    | none => Except.error (ExtractError.malformedJson c)

/-- Key name `sections`. -/
def sectionsK : List Char := "sections".toList

/-- Key name `items`. -/
def itemsK : List Char := "items".toList

/-- Key name `text`. -/
def textK : List Char := "text".toList

/-- Key name `content`. -/
def contentK : List Char := "content".toList

/-- Key name `type`. -/
def typeK : List Char := "type".toList

/-- Key name `heading`. -/
def headingK : List Char := "heading".toList

/-- Item type `p`. -/
def pK : List Char := ['p']

/-- Item type `li`. -/
def liK : List Char := 'l' :: 'i' :: []

/-- Whether `d.get(k)` would return `None`: key missing or bound to null. -/
def isNoneLike : Option Json → Bool
  | none => true
  | some Json.null => true
  | some _ => false

/-- The empty canonical document. -/
def emptyDoc : Json := Json.obj [(sectionsK, Json.arr [])]

/-- Compat pass of the canonical branch of `coerce_to_sections_schema` on one
item: if `it.get("text") is None and it.get("content") is not None`, copy
`content` into `text`.  A non-dict item raises (`it.get`). -/
def updateItem : Json → Option Json
  | Json.obj kvs =>
    let tv := lookupLast kvs textK
    let cv := lookupLast kvs contentK
    if isNoneLike tv then
      match cv with
      | some v => if isNull v then some (Json.obj kvs) else some (Json.obj (setKey kvs textK v))
      | none => some (Json.obj kvs)
    else some (Json.obj kvs)
  | _ => none

/-- Canonical branch of `coerce_to_sections_schema` on one section: iterate
`sec.get("items", [])` applying `updateItem`.  A non-dict section raises
(`sec.get`); iterating a non-iterable `items` value raises; iterating a
non-empty string or dict yields strings, whose `.get` raises. -/
def coerceSec : Json → Option Json
  | Json.obj kvs =>
    match lookupLast kvs itemsK with
    | none => some (Json.obj kvs)
    | some (Json.arr its) =>
      (optMap updateItem its).map (fun out => Json.obj (setKey kvs itemsK (Json.arr out)))
    | some (Json.str s) => if s.isEmpty then some (Json.obj kvs) else none
    | some (Json.obj k2) => if k2.isEmpty then some (Json.obj kvs) else none
    | some _ => none
  | _ => none

/-- Array branch of `coerce_to_sections_schema` on one element:
`txt = it.get("text") or it.get("content") or ""` and
`{"type": (it.get("type") or "p"), "text": txt}`; non-dict elements are
skipped (`none` here means skipped, not raised — this branch never raises). -/
def buildItem : Json → Option Json
  | Json.obj kvs =>
    let t0 := (lookupLast kvs textK).getD Json.null
    let t1 := if pyTruthy t0 then t0 else (lookupLast kvs contentK).getD Json.null
    let txt := if pyTruthy t1 then t1 else Json.str []
    let ty0 := (lookupLast kvs typeK).getD Json.null
    let ty := if pyTruthy ty0 then ty0 else Json.str pK
    some (Json.obj [(typeK, ty), (textK, txt)])
  | _ => none

/-- Assemble the single-section document produced by the array branch. -/
def mkArrayDoc (heading : Json) (items : List Json) : Json :=
  Json.obj [(sectionsK, Json.arr
    [Json.obj [(headingK, heading), (typeK, Json.str ('h' :: '2' :: [])), (itemsK, Json.arr items)]])]

/-- The `type` field of a built item (`items[0]["type"]`; built items always
carry the key). -/
def itemTypeOf : Json → Json
  | Json.obj kvs => (lookupLast kvs typeK).getD Json.null
  | _ => Json.null

/-- The `text` field of a built item (`items[0]["text"]`; built items always
carry the key). -/
def itemTextOf : Json → Json
  | Json.obj kvs => (lookupLast kvs textK).getD Json.null
  | _ => Json.null

/-- Whether a hashable type tag equals one of the heading tags `h1`, `h2`,
`h3` (Python `==` against the set's strings: only strings compare equal).
This is only the equality part of the membership test; the full test
`in {"h1", "h2", "h3"}` is `inHeadingSet`, which first hashes the operand. -/
def isHeadingTag (ty : Json) : Bool :=
  jsonEqStr ty ('h' :: '1' :: []) || jsonEqStr ty ('h' :: '2' :: []) ||
    jsonEqStr ty ('h' :: '3' :: [])

/-- Model of the membership test `v in {"h1", "h2", "h3"}`: Python set
membership hashes its left operand first, so a list or dict raises
`TypeError: unhashable type` (`none`); every other JSON value is hashable
and is then compared by `==`. -/
def inHeadingSet : Json → Option Bool
  | Json.arr _ => none
  | Json.obj _ => none
  | v => some (isHeadingTag v)

/-- Array branch of `coerce_to_sections_schema`: build items, then promote a
leading `h1`/`h2`/`h3` item's text to the section heading.  Raises when the
first built item's `type` is an unhashable (list/dict) value, which the
membership test cannot hash; such a value is necessarily truthy, since a
falsy `type` was already replaced by `"p"`. -/
def arrayBranch (l : List Json) : Option Json :=
  match l.filterMap buildItem with
  | first :: rest =>
    match inHeadingSet (itemTypeOf first) with
    | none => none
    | some true => some (mkArrayDoc (itemTextOf first) rest)
    | some false => some (mkArrayDoc (Json.str []) (first :: rest))
  | [] => some (mkArrayDoc (Json.str []) [])

/-- Model of `coerce_to_sections_schema` (src/main.py, lines 65-90).
`none` models a raised exception. -/
def coerce_to_sections_schema (data : Json) : Option Json :=
  match data with
  | Json.obj kvs =>
    match lookupLast kvs sectionsK with
    | some sv =>
      match sv with
      | Json.arr secs =>
        (optMap coerceSec secs).map (fun out => Json.obj (setKey kvs sectionsK (Json.arr out)))
      | Json.str s => if s.isEmpty then some (Json.obj kvs) else none
      | Json.obj k2 => if k2.isEmpty then some (Json.obj kvs) else none
      | _ => none
    | none => some emptyDoc
  | Json.arr l => arrayBranch l
  | _ => some emptyDoc

/-- The bullet glyph stripped from list items. -/
def bulletChar : Char := Char.ofNat 8226

/-- Model of `re.sub(r"^\s*•\s*", "", text)`: if leading whitespace is
followed by a bullet, remove the whitespace, the bullet and the whitespace
after it; otherwise (no bullet) the text is unchanged. -/
def bulletSub (s : List Char) : List Char :=
  match s.dropWhile isPySpace with
  | c :: rest => if c = bulletChar then rest.dropWhile isPySpace else s
  | [] => s

/-- Conversion applied to a heading value: `markdown_inline_to_html` returns
the empty string on `None`, converts a string, and raises on anything else
(`html.escape` needs a string). -/
def mdJson : Json → Option (List Char)
  | Json.null => some []
  | Json.str s => some (markdown_inline_to_html s)
  | _ => none

/-- Conversion applied to an item's text value after
`item.get("text", "") or ""`: a falsy value becomes the empty string, a
truthy string is converted, a truthy non-string raises. -/
def renderText (v : Json) : Option (List Char) :=
  let v2 := if pyTruthy v then v else Json.str []
  match v2 with
  | Json.str s => some (markdown_inline_to_html s)
  | _ => none

/-- One item of the render loop: the converted text plus whether the item's
type equals `"li"`.  A non-dict item raises (`item.get`). -/
def itemEntry : Json → Option (Bool × List Char)
  | Json.obj kvs =>
    match renderText ((lookupLast kvs textK).getD (Json.str [])) with
    | some txt => some (jsonEqStr ((lookupLast kvs typeK).getD (Json.str pK)) liK, txt)
    | none => none
  | _ => none

/-- The `<li>` block emitted for a list item (bullet stripped, then
`.strip()`). -/
def liBlockOf (t : List Char) : List Char :=
  "<li>".toList ++ pyStrip (bulletSub t) ++ "</li>".toList

/-- The `<p>` block emitted for a non-list item. -/
def pBlockOf (t : List Char) : List Char :=
  "<p>".toList ++ t ++ "</p>".toList

/-- An enclosing `<ul>` block wrapping already-built `<li>` blocks. -/
def ulWrap (buf : List (List Char)) : List (List Char) :=
  "<ul>".toList :: buf ++ ["</ul>".toList]

/-- The `flush()` helper of the renderer: emit the buffered `<li>` blocks in
a `<ul>` block, if any. -/
def flushUl (buf : List (List Char)) : List (List Char) :=
  if buf.isEmpty then [] else ulWrap buf

/-- The item loop of the renderer with its pending-list buffer. -/
def foldBlocksAux : List (Bool × List Char) → List (List Char) → List (List Char)
  | [], buf => flushUl buf
  | e :: rest, buf =>
    if e.1 then foldBlocksAux rest (buf ++ [liBlockOf e.2])
    else flushUl buf ++ (pBlockOf e.2 :: foldBlocksAux rest [])

/-- Blocks emitted for a section's items (buffer initially empty). -/
def foldBlocks (es : List (Bool × List Char)) : List (List Char) :=
  foldBlocksAux es []

/-- Blocks emitted for one section: the heading block (if the converted
heading is non-empty) followed by the item blocks.  A non-dict section
raises. -/
def renderSection : Json → Option (List (List Char))
  | Json.obj kvs =>
    match mdJson ((lookupLast kvs headingK).getD (Json.str [])) with
    | some h =>
      let heads := if h.isEmpty then [] else
        ["<p><strong>".toList ++ h ++ "</strong></p>".toList]
      match pyIter ((lookupLast kvs itemsK).getD (Json.arr [])) with
      | some elems =>
        (optMap itemEntry elems).map (fun entries => heads ++ foldBlocks entries)
      | none => none
    | none => none
  | _ => none

/-- Model of `"sections" not in data` for a truthy `data`: key membership on
a dict, element membership on a list, substring membership on a string,
`TypeError` otherwise. -/
def pyContainsSections : Json → Option Bool
  | Json.obj kvs => some (hasKey kvs sectionsK)
  | Json.arr l => some (l.any (fun x => jsonEqStr x sectionsK))
  | Json.str s => some (isSubstr sectionsK s)
  | _ => none

/-- The fallback error paragraph of the renderer. -/
def errBlock : List Char := "<p>Erro ao processar dados</p>".toList

/-- Model of `build_html_from_sections` (src/main.py, lines 199-241).
Blocks are accumulated across sections and joined with a newline separator
(`"\n".join(html)`). -/
def build_html_from_sections (data : Json) : Option (List Char) :=
  if !pyTruthy data then some errBlock
  else
    match pyContainsSections data with
    | none => none
    | some false => some errBlock
    | some true =>
      match data with
      | Json.obj kvs =>
        match lookupLast kvs sectionsK with
        | some sv =>
          match pyIter sv with
          | some secs =>
            (optMap renderSection secs).map
              (fun bls => List.intercalate [Char.ofNat 10] bls.flatten)
          | none => none
        | none => none
      | _ => none

/-! ### Well-formedness predicates for the canonical branch (claim C1) -/

/-- Shapes of `data` on which `coerce_to_sections_schema` falls through to
the final `return` with the empty document: non-dict non-list values and
dicts without a `sections` key. -/
def fallsThrough : Json → Bool
  | Json.obj kvs => !hasKey kvs sectionsK
  | Json.arr _ => false
  | _ => true

/-- A well-formed section for the canonical branch: a mapping whose `items`
value, when present, is a list of mappings (or something whose iteration is
empty). -/
def goodSec : Json → Bool
  | Json.obj kvs =>
    match lookupLast kvs itemsK with
    | none => true
    | some (Json.arr its) =>
      its.all (fun it => match it with | Json.obj _ => true | _ => false)
    | some (Json.str s) => s.isEmpty
    | some (Json.obj k2) => k2.isEmpty
    | some _ => false
  | _ => false

/-- A well-formed `sections` value for the canonical branch. -/
def goodSectionsVal : Json → Bool
  | Json.arr secs => secs.all goodSec
  | Json.str s => s.isEmpty
  | Json.obj k2 => k2.isEmpty
  | _ => false

/-- An array on which the heading-promotion membership test does not hash an
unhashable value: the first built item's `type`, if any, is not a list or
dict. -/
def arrayPromoteSafe (l : List Json) : Bool :=
  match l.filterMap buildItem with
  | first :: _ => (inHeadingSet (itemTypeOf first)).isSome
  | [] => true

/-! ### Spec-side definitions for the array branch (claim C2, refinement) -/

/-- Spec-side item derivation, following the spec's words: "derive `text` as
(in priority) `text`, else `content`, else empty string, and `type` as the
supplied type or `p`; silently skip any non-mapping elements" (the fallback
is on falsy values, claim C10).  Returns (type, text). -/
def specItemOf : Json → Option (Json × Json)
  | Json.obj kvs =>
    let tv := (lookupLast kvs textK).getD Json.null
    let cv := (lookupLast kvs contentK).getD Json.null
    let yv := (lookupLast kvs typeK).getD Json.null
    some (if pyTruthy yv then yv else Json.str pK,
      if pyTruthy tv then tv else if pyTruthy cv then cv else Json.str [])
  | _ => none

/-- Spec-side promotion, following the spec's words: "if the first item's
`type` is a heading tag, extract its `text` as the new section's `heading`
and remove it from the item list". -/
def specPromote : List (Json × Json) → Json × List (Json × Json)
  | [] => (Json.str [], [])
  | p :: rest => if isHeadingTag p.1 then (p.2, rest) else (Json.str [], p :: rest)

/-- Assemble one item dict from a (type, text) pair. -/
def pairToItem (p : Json × Json) : Json :=
  Json.obj [(typeK, p.1), (textK, p.2)]

/-- Spec-side array normalization: build the item pairs, promote a leading
heading, wrap into a single section with `type: h2`. -/
def specArrayDoc (l : List Json) : Json :=
  let pr := specPromote (l.filterMap specItemOf)
  mkArrayDoc pr.1 (pr.2.map pairToItem)

/-! ### Spec-side definition for list-run grouping (claim C5, refinement) -/

/-- Spec-side block emission, following the spec's words: each maximal run of
consecutive `li` items becomes exactly one enclosing list block containing
their `<li>` blocks in order; any other item is a standalone paragraph
block. -/
def specBlocks : List (Bool × List Char) → List (List Char)
  | [] => []
  | e :: rest =>
    if e.1 then
      ulWrap ((e :: rest.takeWhile Prod.fst).map (fun x => liBlockOf x.2)) ++
        specBlocks (rest.dropWhile Prod.fst)
    else pBlockOf e.2 :: specBlocks rest
termination_by es => es.length
decreasing_by
  · exact Nat.lt_succ_of_le (List.dropWhile_suffix _).length_le
  · exact Nat.lt_succ_of_le le_rfl

/-! ### Basic lemmas -/

/-- Mapping a fallible function that succeeds everywhere succeeds. -/
theorem optMap_isSome {α β : Type} {f : α → Option β} :
    ∀ {l : List α}, (∀ x ∈ l, (f x).isSome = true) → (optMap f l).isSome = true := by
  intro l
  induction l with
  | nil => intro _; rfl
  | cons x xs ih =>
    intro h
    have hx := h x (List.mem_cons_self x xs)
    have hxs := ih (fun y hy => h y (List.mem_cons_of_mem x hy))
    unfold optMap
    cases hfx : f x with
    | none => rw [hfx] at hx; simp at hx
    | some y =>
      cases hrest : optMap f xs with
      | none => rw [hrest] at hxs; simp at hxs
      | some ys => simp

/-- A successful lookup means the key is present. -/
theorem lookupLast_isSome_hasKey {kvs : List (List Char × Json)} {k : List Char}
    (h : (lookupLast kvs k).isSome = true) : hasKey kvs k = true := by
  induction kvs with
  | nil => simp [lookupLast] at h
  | cons kv rest ih =>
    unfold lookupLast at h
    unfold hasKey
    cases hr : lookupLast rest k with
    | some w =>
      have := ih (by rw [hr]; rfl)
      unfold hasKey at this
      simp [this]
    | none =>
      rw [hr] at h
      by_cases hk : kv.1 = k
      · simp [hk]
      · simp [hk] at h

/-- A failed lookup means the key is absent. -/
theorem lookupLast_none_hasKey {kvs : List (List Char × Json)} {k : List Char}
    (h : lookupLast kvs k = none) : hasKey kvs k = false := by
  induction kvs with
  | nil => rfl
  | cons kv rest ih =>
    unfold lookupLast at h
    cases hr : lookupLast rest k with
    | some w => rw [hr] at h; simp at h
    | none =>
      rw [hr] at h
      by_cases hk : kv.1 = k
      · simp [hk] at h
      · unfold hasKey
        have := ih hr
        unfold hasKey at this
        simp [hk, this]

/-- `updateItem` never raises on a mapping. -/
theorem updateItem_isSome (kvs : List (List Char × Json)) :
    (updateItem (Json.obj kvs)).isSome = true := by
  unfold updateItem
  by_cases h : isNoneLike (lookupLast kvs textK) = true
  · simp only [h, if_true]
    cases hc : lookupLast kvs contentK with
    | none => rfl
    | some v => by_cases hv : isNull v = true <;> simp [hv]
  · simp only [Bool.not_eq_true] at h
    simp [h]

/-- `coerceSec` never raises on a well-formed section. -/
theorem coerceSec_isSome {sec : Json} (h : goodSec sec = true) :
    (coerceSec sec).isSome = true := by
  cases sec with
  | obj kvs =>
    simp only [goodSec] at h
    cases hl : lookupLast kvs itemsK with
    | none => simp [coerceSec, hl]
    | some v =>
      rw [hl] at h
      cases v with
      | arr its =>
        have hsome : (optMap updateItem its).isSome = true := by
          apply optMap_isSome
          intro it hit
          have := (List.all_eq_true.mp h) it hit
          cases it with
          | obj k2 => exact updateItem_isSome k2
          | null => simp at this
          | bool b => simp at this
          | num a b c d => simp at this
          | str s => simp at this
          | arr l2 => simp at this
        cases ho : optMap updateItem its with
        | none => rw [ho] at hsome; simp at hsome
        | some out => simp [coerceSec, hl, ho]
      | str s => simp_all [coerceSec]
      | obj k2 => simp_all [coerceSec]
      | null => simp at h
      | bool b => simp at h
      | num a b c d => simp at h
  | null => simp [goodSec] at h
  | bool b => simp [goodSec] at h
  | num a b c d => simp [goodSec] at h
  | str s => simp [goodSec] at h
  | arr l => simp [goodSec] at h

/-! ### Claim C1 -/

/-- C1 (amended): the normalizer is total on every array whose first built
item's `type` is not an unhashable (list/dict) value, on every value that is
not a dict with a `sections` key (degrading to the empty document), and on
every dict whose `sections` value is a well-formed list of section mappings;
the original claim's totality fails both on dicts whose `sections` value is
malformed (see the counterexample) and on arrays whose first built item's
`type` is a truthy list or dict, where the heading-promotion membership test
raises `TypeError: unhashable type`. -/
theorem coerce_total_on_recognized :
    (∀ l, arrayPromoteSafe l = true →
      (coerce_to_sections_schema (Json.arr l)).isSome = true) ∧
    (∀ data, fallsThrough data = true → coerce_to_sections_schema data = some emptyDoc) ∧
    (∀ kvs sv, lookupLast kvs sectionsK = some sv → goodSectionsVal sv = true →
      (coerce_to_sections_schema (Json.obj kvs)).isSome = true) := by
  refine ⟨?_, ?_, ?_⟩
  · intro l hsafe
    show (arrayBranch l).isSome = true
    cases hi : l.filterMap buildItem with
    | nil => simp [arrayBranch, hi]
    | cons first rest =>
      simp only [arrayPromoteSafe, hi] at hsafe
      cases hh : inHeadingSet (itemTypeOf first) with
      | none => rw [hh] at hsafe; simp at hsafe
      | some b => cases b <;> simp [arrayBranch, hi, hh]
  · intro data h
    cases data with
    | obj kvs =>
      simp only [fallsThrough, Bool.not_eq_true'] at h
      cases hl : lookupLast kvs sectionsK with
      | none => simp [coerce_to_sections_schema, hl]
      | some v => rw [lookupLast_isSome_hasKey (by rw [hl]; rfl)] at h; cases h
    | arr l => simp [fallsThrough] at h
    | null => rfl
    | bool b => rfl
    | num a b c d => rfl
    | str s => rfl
  · intro kvs sv hl hg
    cases sv with
    | arr secs =>
      simp only [goodSectionsVal] at hg
      have hsome : (optMap coerceSec secs).isSome = true :=
        optMap_isSome (fun sec hsec => coerceSec_isSome ((List.all_eq_true.mp hg) sec hsec))
      cases ho : optMap coerceSec secs with
      | none => rw [ho] at hsome; simp at hsome
      | some out => simp [coerce_to_sections_schema, hl, ho]
    | str s => simp only [goodSectionsVal] at hg; simp [coerce_to_sections_schema, hl, hg]
    | obj k2 => simp only [goodSectionsVal] at hg; simp [coerce_to_sections_schema, hl, hg]
    | null => simp [goodSectionsVal] at hg
    | bool b => simp [goodSectionsVal] at hg
    | num a b c d => simp [goodSectionsVal] at hg

/-- C1 counterexample: on the object `{"sections": 5}` — an object with a
`sections` key whose value is malformed — the normalizer raises a
`TypeError` (`for sec in 5`) instead of degrading to the empty document, so
it is not a total function on such inputs. -/
theorem coerce_total_cex :
    coerce_to_sections_schema (Json.obj [(sectionsK, Json.num false ['5'] [] none)]) = none := rfl

/-- C1 witness: the amended totality theorem applied at concrete inputs. -/
theorem coerce_total_witness :
    (coerce_to_sections_schema (Json.arr [Json.obj [(textK, Json.str ['a'])]])).isSome = true ∧
    coerce_to_sections_schema (Json.bool true) = some emptyDoc ∧
    (coerce_to_sections_schema
      (Json.obj [(sectionsK, Json.arr [Json.obj [(itemsK, Json.arr [Json.obj []])]])])).isSome = true :=
  ⟨coerce_total_on_recognized.1 [Json.obj [(textK, Json.str ['a'])]] rfl,
   coerce_total_on_recognized.2.1 (Json.bool true) rfl,
   coerce_total_on_recognized.2.2 [(sectionsK, Json.arr [Json.obj [(itemsK, Json.arr [Json.obj []])]])]
     (Json.arr [Json.obj [(itemsK, Json.arr [Json.obj []])]]) rfl rfl⟩

/-! ### Claim C2 -/

/-- The code's item builder agrees pointwise with the spec-side (type, text)
derivation. -/
theorem buildItem_eq_specItemOf :
    ∀ e, buildItem e = (specItemOf e).map pairToItem := by
  intro e
  cases e with
  | obj kvs =>
    simp only [buildItem, specItemOf, pairToItem, Option.map_some']
    by_cases ht : pyTruthy ((lookupLast kvs textK).getD Json.null) = true
    · simp [ht]
    · simp only [Bool.not_eq_true] at ht
      by_cases hc : pyTruthy ((lookupLast kvs contentK).getD Json.null) = true
      · simp [ht, hc]
      · simp only [Bool.not_eq_true] at hc
        simp [ht, hc]
  | null => rfl
  | bool b => rfl
  | num a b c d => rfl
  | str s => rfl
  | arr l => rfl

/-- Filtering with the code's builder is mapping `pairToItem` over the
spec-side pairs. -/
theorem filterMap_buildItem (l : List Json) :
    l.filterMap buildItem = (l.filterMap specItemOf).map pairToItem := by
  induction l with
  | nil => rfl
  | cons x xs ih =>
    rw [List.filterMap_cons, List.filterMap_cons, buildItem_eq_specItemOf x]
    cases hx : specItemOf x with
    | none => simpa using ih
    | some p => simp [ih]

/-- Reading the `type` field of a built item yields the pair's type. -/
theorem itemTypeOf_pairToItem (p : Json × Json) : itemTypeOf (pairToItem p) = p.1 := rfl

/-- Reading the `text` field of a built item yields the pair's text. -/
theorem itemTextOf_pairToItem (p : Json × Json) : itemTextOf (pairToItem p) = p.2 := rfl

/-- For a hashable operand the membership test is the tag-equality check. -/
theorem inHeadingSet_eq {v : Json} (h : (inHeadingSet v).isSome = true) :
    inHeadingSet v = some (isHeadingTag v) := by
  cases v with
  | arr l => simp [inHeadingSet] at h
  | obj kvs => simp [inHeadingSet] at h
  | null => rfl
  | bool b => rfl
  | num a b c d => rfl
  | str s => rfl

/-- C2 (amended): on every array whose first built item's `type` is hashable
(not a list or dict), the normalizer produces exactly the spec-side
single-section document (items from mappings only, `text`-else-`content`
fallback, leading heading promotion, section `type: h2`); in particular the
spec's example array yields one section with heading `Title` and a single
item of type `p` and text `body`.  On an array whose first built item's
`type` is a truthy list or dict the program instead raises (see the
counterexample). -/
theorem coerce_array_branch :
    (∀ l, arrayPromoteSafe l = true →
      coerce_to_sections_schema (Json.arr l) = some (specArrayDoc l)) ∧
    coerce_to_sections_schema (Json.arr
      [Json.obj [(typeK, Json.str ('h' :: '2' :: [])), (textK, Json.str ("Title".toList))],
       Json.obj [(textK, Json.str ("body".toList))]]) =
    some (Json.obj [(sectionsK, Json.arr [Json.obj
      [(headingK, Json.str ("Title".toList)),
       (typeK, Json.str ('h' :: '2' :: [])),
       (itemsK, Json.arr [Json.obj [(typeK, Json.str pK), (textK, Json.str ("body".toList))]])]])]) := by
  constructor
  · intro l hsafe
    show arrayBranch l = some (specArrayDoc l)
    unfold arrayBranch specArrayDoc
    simp only [arrayPromoteSafe] at hsafe
    rw [filterMap_buildItem] at hsafe ⊢
    cases hp : l.filterMap specItemOf with
    | nil => rfl
    | cons p rest =>
      rw [hp] at hsafe
      simp only [List.map_cons, itemTypeOf_pairToItem] at hsafe ⊢
      rw [inHeadingSet_eq hsafe]
      simp only [specPromote, itemTextOf_pairToItem]
      by_cases hh : isHeadingTag p.1 = true <;> simp [hh]
  · rfl

/-- C2 counterexample: on the array `[{"type": ["h1"], "text": "x"}]` — a
mapping whose `type` is the truthy list `["h1"]`, kept by the
`it.get("type") or "p"` fallback — the heading-promotion membership test
`items[0]["type"] in {"h1", "h2", "h3"}` raises
`TypeError: unhashable type: 'list'`, so the normalizer raises instead of
yielding a section document. -/
theorem coerce_array_branch_cex :
    coerce_to_sections_schema (Json.arr [Json.obj
      [(typeK, Json.arr [Json.str ('h' :: '1' :: [])]), (textK, Json.str ['x'])]]) = none := rfl

/-- C2 witness: the amended array theorem applied at the spec's example
array. -/
theorem coerce_array_branch_witness :
    coerce_to_sections_schema (Json.arr
      [Json.obj [(typeK, Json.str ('h' :: '2' :: [])), (textK, Json.str ("Title".toList))],
       Json.obj [(textK, Json.str ("body".toList))]]) =
    some (specArrayDoc
      [Json.obj [(typeK, Json.str ('h' :: '2' :: [])), (textK, Json.str ("Title".toList))],
       Json.obj [(textK, Json.str ("body".toList))]]) :=
  coerce_array_branch.1
    [Json.obj [(typeK, Json.str ('h' :: '2' :: [])), (textK, Json.str ("Title".toList))],
     Json.obj [(textK, Json.str ("body".toList))]] rfl

/-! ### Claim C10 -/

/-- C10: in the array branch the fallback is triggered by falsiness, not
only absence: a `text` field present but equal to the empty string or null,
with `content` a non-empty string, yields `text = content`; and a `type`
field equal to the empty string or null yields type `p`. -/
theorem buildItem_falsy_fallback :
    (∀ kvs c, (lookupLast kvs textK = some (Json.str []) ∨ lookupLast kvs textK = some Json.null) →
      lookupLast kvs contentK = some (Json.str c) → c ≠ [] →
      buildItem (Json.obj kvs) = some (Json.obj
        [(typeK, if pyTruthy ((lookupLast kvs typeK).getD Json.null) then
            (lookupLast kvs typeK).getD Json.null else Json.str pK),
         (textK, Json.str c)])) ∧
    (∀ kvs, (lookupLast kvs typeK = some (Json.str []) ∨ lookupLast kvs typeK = some Json.null) →
      buildItem (Json.obj kvs) = some (Json.obj
        [(typeK, Json.str pK),
         (textK, if pyTruthy ((lookupLast kvs textK).getD Json.null) then
             (lookupLast kvs textK).getD Json.null
           else if pyTruthy ((lookupLast kvs contentK).getD Json.null) then
             (lookupLast kvs contentK).getD Json.null
           else Json.str [])])) := by
  constructor
  · intro kvs c ht hc hne
    have h1 : pyTruthy ((lookupLast kvs textK).getD Json.null) = false := by
      rcases ht with h | h <;> rw [h] <;> rfl
    have h2 : pyTruthy (Json.str c) = true := by
      simpa [pyTruthy] using hne
    rw [buildItem_eq_specItemOf]
    simp only [specItemOf, pairToItem, Option.map_some', h1, h2, if_false, if_true, hc,
      Bool.false_eq_true, Option.getD_some]
  · intro kvs ht
    have h1 : pyTruthy ((lookupLast kvs typeK).getD Json.null) = false := by
      rcases ht with h | h <;> rw [h] <;> rfl
    rw [buildItem_eq_specItemOf]
    simp only [specItemOf, pairToItem, Option.map_some', h1, Bool.false_eq_true, if_false]

/-- C10 witness: the fallback theorem applied at concrete items. -/
theorem buildItem_falsy_fallback_witness :
    buildItem (Json.obj [(textK, Json.str []), (contentK, Json.str ['c'])]) =
      some (Json.obj [(typeK, Json.str pK), (textK, Json.str ['c'])]) ∧
    buildItem (Json.obj [(typeK, Json.null), (textK, Json.str ['t'])]) =
      some (Json.obj [(typeK, Json.str pK), (textK, Json.str ['t'])]) :=
  ⟨buildItem_falsy_fallback.1 [(textK, Json.str []), (contentK, Json.str ['c'])] ['c']
      (Or.inl rfl) rfl (by decide),
   buildItem_falsy_fallback.2 [(typeK, Json.null), (textK, Json.str ['t'])] (Or.inr rfl)⟩

/-! ### Claims C3 and C4 -/

/-- A found first index is within bounds. -/
theorem firstIdx_lt {c : Char} :
    ∀ {s : List Char} {i : Nat}, firstIdx c s = some i → i < s.length := by
  intro s
  induction s with
  | nil => intro i h; simp [firstIdx] at h
  | cons x xs ih =>
    intro i h
    unfold firstIdx at h
    by_cases hx : x = c
    · rw [if_pos hx] at h
      injection h with h
      subst h
      simp
    · rw [if_neg hx] at h
      cases hf : firstIdx c xs with
      | none => rw [hf] at h; cases h
      | some i2 =>
        rw [hf] at h
        simp only [Option.map_some', Option.some.injEq] at h
        have := ih hf
        simp only [List.length_cons]
        omega

/-- A found last index is within bounds. -/
theorem lastIdx_lt {c : Char} {s : List Char} {j : Nat}
    (h : lastIdx c s = some j) : j < s.length := by
  unfold lastIdx at h
  cases hf : firstIdx c s.reverse with
  | none => rw [hf] at h; simp at h
  | some i =>
    rw [hf] at h
    simp only [Option.map_some', Option.some.injEq] at h
    have hi := firstIdx_lt hf
    rw [List.length_reverse] at hi
    omega

/-- A natural slice index is left unchanged by Python index normalization. -/
theorem pyIdx_coe (n k : Nat) (h : k ≤ n) : pyIdx n (k : Int) = k := by
  unfold pyIdx
  rw [if_neg (by omega)]
  simp only [Int.toNat_ofNat]
  omega

/-- A Python slice with in-range natural indices is take-then-drop. -/
theorem pySlice_coe (s : List Char) (i j : Nat) (hi : i ≤ s.length) (hj : j ≤ s.length) :
    pySlice s (i : Int) (j : Int) = (s.take j).drop i := by
  unfold pySlice
  rw [pyIdx_coe _ _ hj, pyIdx_coe _ _ hi]

/-- C3: the candidate substring is the (stripped) fence group when the fence
regex matches anywhere in the stripped text; otherwise it is the slice of
the stripped text from the first occurrence of the opening bracket (`[` when
the text begins with `[`, else the opening brace) to the last occurrence of
the matching closing one; the candidate is then parsed and the parsed value
returned; in particular the fenced example yields the empty-sections
document, unchanged by normalization. -/
theorem extract_candidate_selection :
    (∀ t g, findFence (pyStrip t) = some g → selectCandidate t = pyStrip g) ∧
    (∀ t i j, findFence (pyStrip t) = none →
      ('[' :: []).isPrefixOf (pyStrip t) = true →
      firstIdx '[' (pyStrip t) = some i → lastIdx ']' (pyStrip t) = some j →
      selectCandidate t = ((pyStrip t).take (j + 1)).drop i) ∧
    (∀ t i j, findFence (pyStrip t) = none →
      ('[' :: []).isPrefixOf (pyStrip t) = false →
      firstIdx lbrace (pyStrip t) = some i → lastIdx rbrace (pyStrip t) = some j →
      selectCandidate t = ((pyStrip t).take (j + 1)).drop i) ∧
    (∀ t v, t ≠ [] → jsonLoads (selectCandidate t) = some v →
      extract_json_from_model_output t = Except.ok v) ∧
    (extract_json_from_model_output
        ("prose ```json \x7b\"sections\":[]\x7d ``` more prose".toList) =
      Except.ok (Json.obj [(sectionsK, Json.arr [])]) ∧
      coerce_to_sections_schema (Json.obj [(sectionsK, Json.arr [])]) =
        some (Json.obj [(sectionsK, Json.arr [])])) := by
  refine ⟨?_, ?_, ?_, ?_, rfl, rfl⟩
  · intro t g hf
    unfold selectCandidate
    rw [hf]
  · intro t i j hf hpre hfi hlj
    unfold selectCandidate
    rw [hf]
    simp only [hpre, if_true]
    have hij : pyFind (pyStrip t) '[' = (i : Int) := by simp [pyFind, hfi]
    have hjj : pyRfind (pyStrip t) ']' = (j : Int) := by simp [pyRfind, hlj]
    rw [hij, hjj]
    have : ((j : Int) + 1) = ((j + 1 : Nat) : Int) := by push_cast; ring
    rw [this, pySlice_coe _ _ _ (Nat.le_of_lt (firstIdx_lt hfi)) (lastIdx_lt hlj)]
  · intro t i j hf hpre hfi hlj
    unfold selectCandidate
    rw [hf]
    simp only [hpre, Bool.false_eq_true, if_false]
    have hij : pyFind (pyStrip t) lbrace = (i : Int) := by simp [pyFind, hfi]
    have hjj : pyRfind (pyStrip t) rbrace = (j : Int) := by simp [pyRfind, hlj]
    rw [hij, hjj]
    have : ((j : Int) + 1) = ((j + 1 : Nat) : Int) := by push_cast; ring
    rw [this, pySlice_coe _ _ _ (Nat.le_of_lt (firstIdx_lt hfi)) (lastIdx_lt hlj)]
  · intro t v ht hv
    cases t with
    | nil => exact absurd rfl ht
    | cons x xs =>
      unfold extract_json_from_model_output
      simp only [List.isEmpty_cons, Bool.false_eq_true, if_false]
      rw [hv]

/-- C3 witness: candidate selection and parsing applied at the fenced
example. -/
theorem extract_candidate_selection_witness :
    selectCandidate ("prose ```json \x7b\"sections\":[]\x7d ``` more prose".toList) =
      pyStrip (('\x7b' :: []) ++ "\"sections\":[]".toList ++ ('\x7d' :: [])) ∧
    extract_json_from_model_output ("[1] y".toList) = Except.ok (Json.arr
      [Json.num false ['1'] [] none]) :=
  ⟨extract_candidate_selection.1 ("prose ```json \x7b\"sections\":[]\x7d ``` more prose".toList)
      (('\x7b' :: []) ++ "\"sections\":[]".toList ++ ('\x7d' :: [])) rfl,
   extract_candidate_selection.2.2.2.1 ("[1] y".toList)
      (Json.arr [Json.num false ['1'] [] none]) (by decide) rfl⟩

/-- C4: the extractor fails in exactly two ways — empty input gives the
`EmptyResponse` failure, a candidate that does not parse gives
`MalformedJson` carrying the candidate — and succeeds on every input whose
candidate parses. -/
theorem extract_failure_modes :
    (extract_json_from_model_output [] = Except.error ExtractError.emptyResponse) ∧
    (∀ t, t ≠ [] → jsonLoads (selectCandidate t) = none →
      extract_json_from_model_output t =
        Except.error (ExtractError.malformedJson (selectCandidate t))) ∧
    (∀ t v, t ≠ [] → jsonLoads (selectCandidate t) = some v →
      extract_json_from_model_output t = Except.ok v) ∧
    (∀ t e, extract_json_from_model_output t = Except.error e →
      (t = [] ∧ e = ExtractError.emptyResponse) ∨
      (t ≠ [] ∧ e = ExtractError.malformedJson (selectCandidate t) ∧
        jsonLoads (selectCandidate t) = none)) := by
  refine ⟨rfl, ?_, ?_, ?_⟩
  · intro t ht hn
    cases t with
    | nil => exact absurd rfl ht
    | cons x xs =>
      unfold extract_json_from_model_output
      simp only [List.isEmpty_cons, Bool.false_eq_true, if_false]
      rw [hn]
  · intro t v ht hv
    cases t with
    | nil => exact absurd rfl ht
    | cons x xs =>
      unfold extract_json_from_model_output
      simp only [List.isEmpty_cons, Bool.false_eq_true, if_false]
      rw [hv]
  · intro t e he
    cases t with
    | nil =>
      left
      refine ⟨rfl, ?_⟩
      unfold extract_json_from_model_output at he
      simp only [List.isEmpty_nil, if_true] at he
      exact (Except.error.injEq _ _).mp he.symm |>.symm ▸ rfl
    | cons x xs =>
      right
      unfold extract_json_from_model_output at he
      simp only [List.isEmpty_cons, Bool.false_eq_true, if_false] at he
      cases hv : jsonLoads (selectCandidate (x :: xs)) with
      | some v => rw [hv] at he; cases he
      | none =>
        rw [hv] at he
        refine ⟨List.cons_ne_nil x xs, ?_, rfl⟩
        cases he
        rfl

/-- C4 witness: the failure-mode theorem applied at concrete inputs. -/
theorem extract_failure_modes_witness :
    extract_json_from_model_output ('x' :: []) =
      Except.error (ExtractError.malformedJson (selectCandidate ('x' :: []))) ∧
    extract_json_from_model_output "\x7b\"a\":null\x7d".toList =
      Except.ok (Json.obj [("a".toList, Json.null)]) :=
  ⟨extract_failure_modes.2.1 ('x' :: []) (by decide) rfl,
   extract_failure_modes.2.2.1 ("\x7b\"a\":null\x7d".toList)
     (Json.obj [("a".toList, Json.null)]) (by decide) rfl⟩

/-! ### Claim C5 -/

/-- First-run decomposition of the spec-side grouping. -/
theorem specBlocks_runs (es : List (Bool × List Char)) :
    specBlocks es =
      flushUl ((es.takeWhile Prod.fst).map (fun e => liBlockOf e.2)) ++
        specBlocks (es.dropWhile Prod.fst) := by
  cases es with
  | nil => simp [specBlocks, flushUl]
  | cons e rest =>
    by_cases he : e.1 = true
    · rw [List.takeWhile_cons_of_pos he, List.dropWhile_cons_of_pos he]
      simp only [specBlocks, he, if_true, List.map_cons]
      rw [show flushUl (liBlockOf e.2 :: (rest.takeWhile Prod.fst).map (fun e => liBlockOf e.2)) =
          ulWrap (liBlockOf e.2 :: (rest.takeWhile Prod.fst).map (fun e => liBlockOf e.2)) from by
        simp [flushUl]]
    · have he2 : e.1 = false := by simpa using he
      rw [List.takeWhile_cons_of_neg (by simp [he2]), List.dropWhile_cons_of_neg (by simp [he2])]
      simp [flushUl]

/-- The renderer's buffered item loop computes the spec-side grouping, for
any initial buffer of pending list items. -/
theorem foldBlocksAux_runs :
    ∀ (n : Nat) (es : List (Bool × List Char)), es.length ≤ n → ∀ buf,
      foldBlocksAux es buf =
        flushUl (buf ++ (es.takeWhile Prod.fst).map (fun e => liBlockOf e.2)) ++
          specBlocks (es.dropWhile Prod.fst) := by
  intro n
  induction n with
  | zero =>
    intro es h buf
    have : es = [] := List.eq_nil_of_length_eq_zero (Nat.le_zero.mp h)
    subst this
    simp [foldBlocksAux, specBlocks]
  | succ n ih =>
    intro es h buf
    cases es with
    | nil => simp [foldBlocksAux, specBlocks]
    | cons e rest =>
      by_cases he : e.1 = true
      · have step : foldBlocksAux (e :: rest) buf = foldBlocksAux rest (buf ++ [liBlockOf e.2]) := by
          simp [foldBlocksAux, he]
        rw [step, ih rest (by simpa using Nat.le_of_succ_le_succ (by simpa using h))
          (buf ++ [liBlockOf e.2])]
        rw [List.takeWhile_cons_of_pos he, List.dropWhile_cons_of_pos he]
        simp [List.append_assoc]
      · have he2 : e.1 = false := by simpa using he
        have step : foldBlocksAux (e :: rest) buf =
            flushUl buf ++ (pBlockOf e.2 :: foldBlocksAux rest []) := by
          simp [foldBlocksAux, he2]
        rw [step, ih rest (by simpa using Nat.le_of_succ_le_succ (by simpa using h)) []]
        rw [List.takeWhile_cons_of_neg (by simp [he2]), List.dropWhile_cons_of_neg (by simp [he2])]
        have hsb : specBlocks (e :: rest) = pBlockOf e.2 :: specBlocks rest := by
          simp [specBlocks, he2]
        rw [hsb, specBlocks_runs rest]
        simp

/-- The item loop equals the spec-side grouping. -/
theorem foldBlocks_eq_specBlocks (es : List (Bool × List Char)) :
    foldBlocks es = specBlocks es := by
  rw [foldBlocks, foldBlocksAux_runs es.length es le_rfl [], List.nil_append, ← specBlocks_runs]

/-- C5: the renderer groups each maximal run of consecutive `li` items into
exactly one enclosing `<ul>` block holding their `<li>` blocks in order; a
non-`li` item flushes the pending run (paragraphs never end up inside a
list) and a later `li` starts a new list block; a run pending at the end of
the section is flushed; demonstrated on a section with the runs
`li li p li`. -/
theorem render_groups_li_runs :
    (∀ es, foldBlocks es = specBlocks es) ∧
    renderSection (Json.obj [(headingK, Json.str []), (itemsK, Json.arr
      [Json.obj [(textK, Json.str ['a']), (typeK, Json.str liK)],
       Json.obj [(textK, Json.str ['b']), (typeK, Json.str liK)],
       Json.obj [(textK, Json.str ['c'])],
       Json.obj [(textK, Json.str ['d']), (typeK, Json.str liK)]])]) =
    some ["<ul>".toList, "<li>a</li>".toList, "<li>b</li>".toList, "</ul>".toList,
      "<p>c</p>".toList, "<ul>".toList, "<li>d</li>".toList, "</ul>".toList] :=
  ⟨foldBlocks_eq_specBlocks, rfl⟩

/-! ### Claim C7 -/

/-- C7: the three substitutions are applied in strict precedence order
(bold+italic, then bold, then italic, each lazy), and on the spec's
round-trip examples the converter produces the expected wrappings, leaving a
single unmatched asterisk as escaped literal text. -/
theorem markdown_precedence_examples :
    (∀ t, markdown_inline_to_html t =
      reSub star1 emOpen emClose
        (reSub star2 bOpen bClose (reSub star3 biOpen biClose (htmlEscape t)))) ∧
    markdown_inline_to_html ("***a***".toList) = "<strong><em>a</em></strong>".toList ∧
    markdown_inline_to_html ("**a**".toList) = "<strong>a</strong>".toList ∧
    markdown_inline_to_html ("*a*".toList) = "<em>a</em>".toList ∧
    markdown_inline_to_html ("a*b".toList) = "a*b".toList ∧
    htmlEscape ("a*b".toList) = "a*b".toList :=
  ⟨fun _ => rfl, rfl, rfl, rfl, rfl, rfl⟩

/-! ### Claim C8 -/

/-- A character outside the five specials is kept by the escaper. -/
theorem escapeChar_id {c : Char} (h1 : c ≠ '&') (h2 : c ≠ '<') (h3 : c ≠ '>')
    (h4 : c ≠ qChar) (h5 : c ≠ aposChar) : escapeChar c = [c] := by
  unfold escapeChar
  rw [if_neg h1, if_neg h2, if_neg h3, if_neg h4, if_neg h5]

/-- Escaping is the identity on strings without special characters. -/
theorem htmlEscape_id :
    ∀ {s : List Char}, '&' ∉ s → '<' ∉ s → '>' ∉ s → qChar ∉ s → aposChar ∉ s →
      htmlEscape s = s := by
  intro s
  induction s with
  | nil => intros; rfl
  | cons c cs ih =>
    intro h1 h2 h3 h4 h5
    simp only [List.mem_cons, not_or] at h1 h2 h3 h4 h5
    unfold htmlEscape
    rw [escapeChar_id (Ne.symm h1.1) (Ne.symm h2.1) (Ne.symm h3.1) (Ne.symm h4.1) (Ne.symm h5.1),
      ih h1.2 h2.2 h3.2 h4.2 h5.2]
    rfl

/-- With a delimiter starting with `*`, substitution is the identity on
asterisk-free strings. -/
theorem reSubF_id {d pre post : List Char} (hd : d.head? = some '*') :
    ∀ (f : Nat) (s : List Char), '*' ∉ s → reSubF d pre post f s = s := by
  intro f
  induction f with
  | zero => intro s _; cases s <;> rfl
  | succ f ih =>
    intro s h
    cases s with
    | nil => rfl
    | cons c cs =>
      simp only [List.mem_cons, not_or] at h
      have hpre : d.isPrefixOf (c :: cs) = false := by
        cases d with
        | nil => simp at hd
        | cons d0 d' =>
          have hd0 : d0 = '*' := by injection hd
          subst hd0
          simp only [List.isPrefixOf, Bool.and_eq_false_iff]
          left
          simpa using h.1
      simp only [reSubF, hpre, Bool.false_eq_true, if_false]
      rw [ih cs h.2]

/-- Substitution with a star delimiter fixes asterisk-free strings. -/
theorem reSub_id {d pre post : List Char} (hd : d.head? = some '*')
    (s : List Char) (h : '*' ∉ s) : reSub d pre post s = s :=
  reSubF_id hd s.length s h

/-- C8 (amended): the converter is the identity on every string containing
no asterisk and no HTML-special character (ampersand, angle brackets,
quotes); the original claim fails on escaped text containing an ampersand,
which the converter re-escapes (see the counterexample). -/
theorem markdown_id_on_plain :
    ∀ s : List Char, '*' ∉ s → '&' ∉ s → '<' ∉ s → '>' ∉ s → qChar ∉ s → aposChar ∉ s →
      markdown_inline_to_html s = s := by
  intro s h0 h1 h2 h3 h4 h5
  unfold markdown_inline_to_html
  rw [htmlEscape_id h1 h2 h3 h4 h5,
    reSub_id (show star3.head? = some '*' from rfl) s h0,
    reSub_id (show star2.head? = some '*' from rfl) s h0,
    reSub_id (show star1.head? = some '*' from rfl) s h0]

/-- C8 counterexample: `"&amp;"` is the HTML-escaped form of the plain text
`"&"` and contains no asterisk, yet the converter does not fix it — the
escape step re-escapes the ampersand — so conversion is not idempotent on
already-escaped text. -/
theorem markdown_id_cex :
    htmlEscape ('&' :: []) = "&amp;".toList ∧
    markdown_inline_to_html ("&amp;".toList) = "&amp;amp;".toList ∧
    ("&amp;amp;".toList : List Char) ≠ "&amp;".toList :=
  ⟨rfl, rfl, by decide⟩

/-- C8 witness: the amended identity applied at a concrete plain string. -/
theorem markdown_id_witness : markdown_inline_to_html ("abc".toList) = "abc".toList :=
  markdown_id_on_plain ("abc".toList) (by decide) (by decide) (by decide) (by decide)
    (by decide) (by decide)

/-! ### Claim C9 -/

/-- C9 (amended): the renderer joins all emitted blocks across all sections
with a newline separator between consecutive blocks (`"\n".join`; no
trailing newline — the original "each followed by a newline" fails, see the
counterexample); a document with zero sections emits the empty string. -/
theorem build_html_newline_join :
    (build_html_from_sections emptyDoc = some []) ∧
    (∀ kvs sv secs bls, pyTruthy (Json.obj kvs) = true →
      lookupLast kvs sectionsK = some sv → pyIter sv = some secs →
      optMap renderSection secs = some bls →
      build_html_from_sections (Json.obj kvs) =
        some (List.intercalate [Char.ofNat 10] bls.flatten)) := by
  refine ⟨rfl, ?_⟩
  intro kvs sv secs bls htr hl hit hopt
  unfold build_html_from_sections
  rw [htr]
  have hck : pyContainsSections (Json.obj kvs) = some true := by
    simp [pyContainsSections, lookupLast_isSome_hasKey (by rw [hl]; rfl)]
  rw [hck]
  simp only [Bool.not_true, Bool.false_eq_true, if_false]
  rw [hl]
  simp only [hit, hopt, Option.map_some']

/-- C9 counterexample: a document emitting two blocks renders with a newline
between the blocks but no trailing newline, so the output differs from the
concatenation of blocks each followed by a newline. -/
theorem build_html_newline_join_cex :
    build_html_from_sections (Json.obj [(sectionsK, Json.arr [Json.obj
      [(headingK, Json.str ['x']),
       (itemsK, Json.arr [Json.obj [(textK, Json.str ['y'])]])]])]) =
      some "<p><strong>x</strong></p>\n<p>y</p>".toList ∧
    ("<p><strong>x</strong></p>\n<p>y</p>".toList : List Char) ≠
      "<p><strong>x</strong></p>\n".toList ++ "<p>y</p>\n".toList :=
  ⟨rfl, by decide⟩

/-- C9 witness: the join theorem applied at a concrete one-block document. -/
theorem build_html_newline_join_witness :
    build_html_from_sections
        (Json.obj [(sectionsK, Json.arr [Json.obj [(headingK, Json.str ['h'])]])]) =
      some (List.intercalate [Char.ofNat 10] [["<p><strong>h</strong></p>".toList]].flatten) :=
  build_html_newline_join.2 [(sectionsK, Json.arr [Json.obj [(headingK, Json.str ['h'])]])]
    (Json.arr [Json.obj [(headingK, Json.str ['h'])]]) [Json.obj [(headingK, Json.str ['h'])]]
    [["<p><strong>h</strong></p>".toList]] rfl rfl rfl rfl

/-! ### Claim C6: machinery -/

/-- What follows a `<` in a `<strong>` tag. -/
def tagSS : List Char := "strong>".toList

/-- What follows a `<` in a `</strong>` tag. -/
def tagSE : List Char := "/strong>".toList

/-- What follows a `<` in an `<em>` tag. -/
def tagES : List Char := "em>".toList

/-- What follows a `<` in a `</em>` tag. -/
def tagEE : List Char := "/em>".toList

/-- All characters occurring in the converter's tags. -/
def tagChars : List Char := "</strongem>".toList

/-- Whether the text begins with the remainder of one of the four converter
tags. -/
def isTagStart (cs : List Char) : Bool :=
  tagSS.isPrefixOf cs || tagSE.isPrefixOf cs || tagES.isPrefixOf cs || tagEE.isPrefixOf cs

/-- Every occurrence of `<` in the string starts one of the converter's four
tags (`<strong>`, `</strong>`, `<em>`, `</em>`): no other markup is
present. -/
def ltSafe : List Char → Bool
  | [] => true
  | c :: cs => (if c = '<' then isTagStart cs else true) && ltSafe cs

/-- Prefixes persist under right extension. -/
theorem isPrefixOf_append_r {p a b : List Char} (h : p.isPrefixOf a = true) :
    p.isPrefixOf (a ++ b) = true := by
  rw [List.isPrefixOf_iff_prefix] at *
  exact h.trans (List.prefix_append a b)

/-- A prefix decomposes the list. -/
theorem eq_append_of_isPrefixOf {p a : List Char} (h : p.isPrefixOf a = true) :
    a = p ++ a.drop p.length := by
  rw [List.isPrefixOf_iff_prefix] at h
  obtain ⟨t, rfl⟩ := h
  rw [List.drop_left]

/-- Tag starts persist under right extension. -/
theorem isTagStart_mono {cs ds : List Char} (h : isTagStart cs = true) :
    isTagStart (cs ++ ds) = true := by
  simp only [isTagStart, Bool.or_eq_true] at *
  rcases h with ((h | h) | h) | h
  · exact Or.inl (Or.inl (Or.inl (isPrefixOf_append_r h)))
  · exact Or.inl (Or.inl (Or.inr (isPrefixOf_append_r h)))
  · exact Or.inl (Or.inr (isPrefixOf_append_r h))
  · exact Or.inr (isPrefixOf_append_r h)

/-- Tag safety is closed under concatenation. -/
theorem ltSafe_append : ∀ {a b : List Char}, ltSafe a = true → ltSafe b = true →
    ltSafe (a ++ b) = true := by
  intro a
  induction a with
  | nil => intro b _ hb; simpa
  | cons c a' ih =>
    intro b ha hb
    simp only [ltSafe, Bool.and_eq_true] at ha
    simp only [List.cons_append, ltSafe, Bool.and_eq_true]
    refine ⟨?_, ih ha.2 hb⟩
    by_cases hc : c = '<'
    · simp only [hc, if_true] at ha ⊢
      exact isTagStart_mono ha.1
    · simp [hc]

/-- Tag safety passes to suffixes along an append. -/
theorem ltSafe_suffix : ∀ {a b : List Char}, ltSafe (a ++ b) = true → ltSafe b = true := by
  intro a
  induction a with
  | nil => intro b h; simpa using h
  | cons c a' ih =>
    intro b h
    simp only [List.cons_append, ltSafe, Bool.and_eq_true] at h
    exact ih h.2

/-- Prepending `<`-free text does not affect tag safety. -/
theorem ltSafe_nolt_append : ∀ {a b : List Char}, (∀ c ∈ a, c ≠ '<') →
    ltSafe (a ++ b) = ltSafe b := by
  intro a
  induction a with
  | nil => intro b _; rfl
  | cons c a' ih =>
    intro b ha
    have hc : c ≠ '<' := ha c (List.mem_cons_self c a')
    simp only [List.cons_append, ltSafe, hc, if_neg hc, Bool.true_and]
    exact ih (fun x hx => ha x (List.mem_cons_of_mem c hx))

/-- `<`-free text is tag safe. -/
theorem ltSafe_of_nolt {a : List Char} (ha : ∀ c ∈ a, c ≠ '<') : ltSafe a = true := by
  have := ltSafe_nolt_append (b := []) ha
  rw [List.append_nil] at this
  rw [this]
  rfl

/-- A prefix made of tag characters cannot spill into a part that starts
with a non-tag character: it is already a prefix of the left part. -/
theorem prefix_trapped : ∀ {T b z : List Char} {c0 : Char}, (∀ c ∈ T, c ∈ tagChars) →
    z.head? = some c0 → c0 ∉ tagChars → T.isPrefixOf (b ++ z) = true →
    T.isPrefixOf b = true := by
  intro T
  induction T with
  | nil => intro b z c0 _ _ _ _; cases b <;> rfl
  | cons t T' ih =>
    intro b z c0 hT hz hc0 h
    cases b with
    | nil =>
      simp only [List.nil_append] at h
      cases z with
      | nil => simp [List.isPrefixOf] at h
      | cons z0 z' =>
        simp only [List.isPrefixOf, Bool.and_eq_true, beq_iff_eq] at h
        injection hz with hz
        subst hz
        exact absurd (h.1 ▸ hT t (List.mem_cons_self t T')) hc0
    | cons x b' =>
      simp only [List.cons_append, List.isPrefixOf, Bool.and_eq_true] at h
      have := ih (fun c hc => hT c (List.mem_cons_of_mem t hc)) hz hc0 h.2
      simp only [List.isPrefixOf, Bool.and_eq_true]
      exact ⟨h.1, this⟩

/-- Tag safety passes to the left part of an append whose right part starts
with a non-tag character. -/
theorem ltSafe_left_extract : ∀ {b z : List Char} {c0 : Char}, z.head? = some c0 →
    c0 ∉ tagChars → ltSafe (b ++ z) = true → ltSafe b = true := by
  intro b
  induction b with
  | nil => intro z c0 _ _ _; rfl
  | cons c b' ih =>
    intro z c0 hz hc0 h
    simp only [List.cons_append, ltSafe, Bool.and_eq_true] at h
    simp only [ltSafe, Bool.and_eq_true]
    refine ⟨?_, ih hz hc0 h.2⟩
    by_cases hc : c = '<'
    · simp only [hc, if_true] at h ⊢
      have hts := h.1
      simp only [isTagStart, Bool.or_eq_true] at hts ⊢
      rcases hts with ((ht | ht) | ht) | ht
      · exact Or.inl (Or.inl (Or.inl (prefix_trapped (by decide) hz hc0 ht)))
      · exact Or.inl (Or.inl (Or.inr (prefix_trapped (by decide) hz hc0 ht)))
      · exact Or.inl (Or.inr (prefix_trapped (by decide) hz hc0 ht))
      · exact Or.inr (prefix_trapped (by decide) hz hc0 ht)
    · simp [hc]

/-- A successful lazy match decomposes the input. -/
theorem lazyBody_decomp {close : List Char} :
    ∀ {rest b r : List Char}, lazyBody close rest = some (b, r) → rest = b ++ close ++ r := by
  intro rest
  induction rest with
  | nil => intro b r h; simp [lazyBody] at h
  | cons c cs ih =>
    intro b r h
    unfold lazyBody at h
    by_cases hn : c = Char.ofNat 10
    · rw [if_pos hn] at h; cases h
    · rw [if_neg hn] at h
      by_cases hp : close.isPrefixOf cs = true
      · simp only [hp, if_true, Option.some.injEq, Prod.mk.injEq] at h
        obtain ⟨hb, hr⟩ := h
        subst hb; subst hr
        have := eq_append_of_isPrefixOf hp
        conv_lhs => rw [this]
        simp
      · simp only [hp, Bool.false_eq_true, if_false] at h
        cases hlb : lazyBody close cs with
        | none => rw [hlb] at h; cases h
        | some p =>
          rw [hlb] at h
          obtain ⟨b0, r0⟩ := p
          simp only [Option.some.injEq, Prod.mk.injEq] at h
          obtain ⟨hb, hr⟩ := h
          subst hb; subst hr
          have := ih hlb
          rw [this]
          simp

/-- A successful lazy match strictly shrinks the remainder. -/
theorem lazyBody_length {close : List Char} :
    ∀ {rest b r : List Char}, lazyBody close rest = some (b, r) → r.length < rest.length := by
  intro rest
  induction rest with
  | nil => intro b r h; simp [lazyBody] at h
  | cons c cs ih =>
    intro b r h
    unfold lazyBody at h
    by_cases hn : c = Char.ofNat 10
    · rw [if_pos hn] at h; cases h
    · rw [if_neg hn] at h
      by_cases hp : close.isPrefixOf cs = true
      · simp only [hp, if_true, Option.some.injEq, Prod.mk.injEq] at h
        obtain ⟨_, hr⟩ := h
        subst hr
        have : (cs.drop close.length).length ≤ cs.length := by
          rw [List.length_drop]; omega
        simp only [List.length_cons]
        omega
      · simp only [hp, Bool.false_eq_true, if_false] at h
        cases hlb : lazyBody close cs with
        | none => rw [hlb] at h; cases h
        | some p =>
          rw [hlb] at h
          obtain ⟨b0, r0⟩ := p
          simp only [Option.some.injEq, Prod.mk.injEq] at h
          obtain ⟨_, hr⟩ := h
          subst hr
          have := ih hlb
          simp only [List.length_cons]
          omega

/-- The substitution result does not depend on the fuel, once sufficient. -/
theorem reSubF_fuel {d pre post : List Char} :
    ∀ (f : Nat) (g : Nat) (s : List Char), s.length ≤ f → s.length ≤ g →
      reSubF d pre post f s = reSubF d pre post g s := by
  intro f
  induction f with
  | zero =>
    intro g s hf _
    have : s = [] := List.eq_nil_of_length_eq_zero (Nat.le_zero.mp hf)
    subst this
    simp [reSubF]
  | succ f ih =>
    intro g s hf hg
    cases s with
    | nil => simp [reSubF]
    | cons c cs =>
      cases g with
      | zero => simp at hg
      | succ g =>
        by_cases h1 : d.isPrefixOf (c :: cs) = true
        · cases h2 : lazyBody d ((c :: cs).drop d.length) with
          | some p =>
            obtain ⟨b, r⟩ := p
            have hr : r.length < cs.length + 1 := by
              have h3 := lazyBody_length h2
              have h4 : ((c :: cs).drop d.length).length ≤ (c :: cs).length := by
                rw [List.length_drop]; omega
              simp only [List.length_cons] at h4
              omega
            simp only [reSubF, h1, if_true, h2]
            simp only [List.length_cons] at hf hg
            rw [ih g r (by omega) (by omega)]
          | none =>
            simp only [reSubF, h1, if_true, h2]
            simp only [List.length_cons] at hf hg
            rw [ih g cs (by omega) (by omega)]
        · simp only [reSubF, h1, Bool.false_eq_true, if_false]
          simp only [List.length_cons] at hf hg
          rw [ih g cs (by omega) (by omega)]

/-- Step equation of `reSub` at a matching position. -/
theorem reSub_cons_match {d pre post : List Char} {c : Char} {cs b r : List Char}
    (h1 : d.isPrefixOf (c :: cs) = true)
    (h2 : lazyBody d ((c :: cs).drop d.length) = some (b, r)) :
    reSub d pre post (c :: cs) = pre ++ b ++ post ++ reSub d pre post r := by
  unfold reSub
  have hr : r.length < (c :: cs).length := by
    have h3 := lazyBody_length h2
    have h4 : ((c :: cs).drop d.length).length ≤ (c :: cs).length := by
      rw [List.length_drop]; omega
    omega
  simp only [List.length_cons, reSubF, h1, if_true, h2]
  rw [reSubF_fuel cs.length r.length r (by simp only [List.length_cons] at hr; omega) le_rfl]

/-- Step equation of `reSub` at a position where the delimiter matches but no
closing delimiter follows. -/
theorem reSub_cons_nobody {d pre post : List Char} {c : Char} {cs : List Char}
    (h1 : d.isPrefixOf (c :: cs) = true)
    (h2 : lazyBody d ((c :: cs).drop d.length) = none) :
    reSub d pre post (c :: cs) = c :: reSub d pre post cs := by
  unfold reSub
  simp only [List.length_cons, reSubF, h1, if_true, h2]

/-- Step equation of `reSub` at a non-matching position. -/
theorem reSub_cons_nopre {d pre post : List Char} {c : Char} {cs : List Char}
    (h1 : d.isPrefixOf (c :: cs) = false) :
    reSub d pre post (c :: cs) = c :: reSub d pre post cs := by
  unfold reSub
  simp only [List.length_cons, reSubF, h1, Bool.false_eq_true, if_false]

/-- A delimiter beginning with `*` cannot match at a non-asterisk head. -/
theorem isPrefixOf_false_of_star {d : List Char} {c : Char} {cs : List Char}
    (hd : d.head? = some '*') (hc : c ≠ '*') : d.isPrefixOf (c :: cs) = false := by
  cases d with
  | nil => simp at hd
  | cons d0 d' =>
    have hd0 : d0 = '*' := by injection hd
    subst hd0
    simp only [List.isPrefixOf, Bool.and_eq_false_iff]
    left
    simpa using fun e => hc e.symm

/-- Substitution copies asterisk-free text verbatim. -/
theorem reSub_copy {d pre post : List Char} (hd : d.head? = some '*') :
    ∀ {T rest : List Char}, (∀ c ∈ T, c ≠ '*') →
      reSub d pre post (T ++ rest) = T ++ reSub d pre post rest := by
  intro T
  induction T with
  | nil => intro rest _; rfl
  | cons t T' ih =>
    intro rest hT
    have ht : t ≠ '*' := hT t (List.mem_cons_self t T')
    simp only [List.cons_append]
    rw [reSub_cons_nopre (isPrefixOf_false_of_star hd ht),
      ih (fun c hc => hT c (List.mem_cons_of_mem t hc))]

/-- Substitution by an all-asterisk delimiter, inserting tag-safe fragments,
preserves tag safety. -/
theorem ltSafe_reSub (d pre post : List Char) (hd : d ≠ []) (hstar : ∀ c ∈ d, c = '*')
    (hpre : ltSafe pre = true) (hpost : ltSafe post = true) :
    ∀ s, ltSafe s = true → ltSafe (reSub d pre post s) = true := by
  suffices H : ∀ n s, s.length ≤ n → ltSafe s = true →
      ltSafe (reSub d pre post s) = true by
    exact fun s => H s.length s le_rfl
  intro n
  induction n with
  | zero =>
    intro s h hs
    have : s = [] := List.eq_nil_of_length_eq_zero (Nat.le_zero.mp h)
    subst this
    exact hs
  | succ n ih =>
    intro s hlen hs
    cases s with
    | nil => exact hs
    | cons c cs =>
      have hdh : d.head? = some '*' := by
        cases d with
        | nil => exact absurd rfl hd
        | cons d0 d' => simp [hstar d0 (List.mem_cons_self d0 d')]
      have hdlen : 1 ≤ d.length := by
        cases d with
        | nil => exact absurd rfl hd
        | cons d0 d' => simp
      simp only [List.length_cons] at hlen
      by_cases h1 : d.isPrefixOf (c :: cs) = true
      · have hc : c = '*' := by
          cases d with
          | nil => exact absurd rfl hd
          | cons d0 d' =>
            simp only [List.isPrefixOf, Bool.and_eq_true, beq_iff_eq] at h1
            rw [← h1.1]
            exact hstar d0 (List.mem_cons_self d0 d')
        cases h2 : lazyBody d ((c :: cs).drop d.length) with
        | none =>
          rw [reSub_cons_nobody h1 h2]
          have hcs : ltSafe cs = true := by
            simp only [ltSafe, Bool.and_eq_true] at hs
            exact hs.2
          have hrec := ih cs (by omega) hcs
          simp [ltSafe, hc, hrec]
        | some p =>
          obtain ⟨b, r⟩ := p
          rw [reSub_cons_match h1 h2]
          have hdec1 : (c :: cs) = d ++ (c :: cs).drop d.length := eq_append_of_isPrefixOf h1
          have hdec2 : (c :: cs).drop d.length = b ++ d ++ r := lazyBody_decomp h2
          have hnoltd : ∀ x ∈ d, x ≠ '<' := fun x hx => by rw [hstar x hx]; decide
          have hs1 : ltSafe (b ++ (d ++ r)) = true := by
            have hall : ltSafe (d ++ (c :: cs).drop d.length) = true := by
              rw [← hdec1]; exact hs
            rw [ltSafe_nolt_append hnoltd, hdec2] at hall
            simpa [List.append_assoc] using hall
          have hzhead : (d ++ r).head? = some '*' := by
            cases d with
            | nil => exact absurd rfl hd
            | cons d0 d' => simp [hstar d0 (List.mem_cons_self d0 d')]
          have hb : ltSafe b = true := ltSafe_left_extract hzhead (by decide) hs1
          have hdr : ltSafe (d ++ r) = true := ltSafe_suffix hs1
          have hr : ltSafe r = true := by
            rw [ltSafe_nolt_append hnoltd] at hdr
            exact hdr
          have hrlen : r.length ≤ n := by
            have h3 := lazyBody_length h2
            have h4 : ((c :: cs).drop d.length).length ≤ cs.length + 1 := by
              rw [List.length_drop]
              simp only [List.length_cons]
              omega
            omega
          have hrec := ih r hrlen hr
          have a1 := ltSafe_append hpost hrec
          have a2 := ltSafe_append hb a1
          have a3 := ltSafe_append hpre a2
          simpa [List.append_assoc] using a3
      · have h1f : d.isPrefixOf (c :: cs) = false := Bool.eq_false_iff.mpr h1
        rw [reSub_cons_nopre h1f]
        by_cases hc : c = '<'
        · subst hc
          simp only [ltSafe, if_pos rfl, Bool.and_eq_true] at hs
          obtain ⟨hts, hcs⟩ := hs
          have tagCase : ∀ T : List Char, T.isPrefixOf cs = true → (∀ x ∈ T, x ≠ '*') →
              (∀ x ∈ T, x ≠ '<') →
              T.isPrefixOf (reSub d pre post cs) = true ∧
                ltSafe (reSub d pre post cs) = true := by
            intro T hTpre hTstar hTlt
            have hdecT : cs = T ++ cs.drop T.length := eq_append_of_isPrefixOf hTpre
            have hcopy : reSub d pre post cs = T ++ reSub d pre post (cs.drop T.length) := by
              conv_lhs => rw [hdecT]
              exact reSub_copy hdh hTstar
            have hrest : ltSafe (cs.drop T.length) = true := by
              have hTall : ltSafe (T ++ cs.drop T.length) = true := by
                rw [← hdecT]; exact hcs
              exact ltSafe_suffix hTall
            have hrlen : (cs.drop T.length).length ≤ n := by
              rw [List.length_drop]
              omega
            have hrec := ih (cs.drop T.length) hrlen hrest
            constructor
            · rw [hcopy]
              exact List.isPrefixOf_iff_prefix.mpr (List.prefix_append T _)
            · rw [hcopy, ltSafe_nolt_append hTlt]
              exact hrec
          by_cases ht1 : tagSS.isPrefixOf cs = true
          · obtain ⟨hp2, hsafe⟩ := tagCase tagSS ht1 (by decide) (by decide)
            simp [ltSafe, isTagStart, hp2, hsafe]
          · by_cases ht2 : tagSE.isPrefixOf cs = true
            · obtain ⟨hp2, hsafe⟩ := tagCase tagSE ht2 (by decide) (by decide)
              simp [ltSafe, isTagStart, hp2, hsafe]
            · by_cases ht3 : tagES.isPrefixOf cs = true
              · obtain ⟨hp2, hsafe⟩ := tagCase tagES ht3 (by decide) (by decide)
                simp [ltSafe, isTagStart, hp2, hsafe]
              · by_cases ht4 : tagEE.isPrefixOf cs = true
                · obtain ⟨hp2, hsafe⟩ := tagCase tagEE ht4 (by decide) (by decide)
                  simp [ltSafe, isTagStart, hp2, hsafe]
                · exfalso
                  simp [isTagStart, ht1, ht2, ht3, ht4] at hts
        · have hcs : ltSafe cs = true := by
            simp only [ltSafe, Bool.and_eq_true] at hs
            exact hs.2
          have hrec := ih cs (by omega) hcs
          simp [ltSafe, hc, hrec]

/-- The escaper never emits an angle bracket. -/
theorem escapeChar_no_angle (c : Char) : '<' ∉ escapeChar c ∧ '>' ∉ escapeChar c := by
  unfold escapeChar
  split_ifs with hAmp hLt hGt hQ hApos
  · exact ⟨by decide, by decide⟩
  · exact ⟨by decide, by decide⟩
  · exact ⟨by decide, by decide⟩
  · exact ⟨by decide, by decide⟩
  · exact ⟨by decide, by decide⟩
  · constructor
    · simpa using fun e => hLt e.symm
    · simpa using fun e => hGt e.symm

/-- Escaped text contains no raw angle brackets. -/
theorem htmlEscape_no_angle : ∀ t, '<' ∉ htmlEscape t ∧ '>' ∉ htmlEscape t := by
  intro t
  induction t with
  | nil => exact ⟨by decide, by decide⟩
  | cons c cs ih =>
    unfold htmlEscape
    constructor
    · intro hmem
      rcases List.mem_append.mp hmem with h | h
      · exact (escapeChar_no_angle c).1 h
      · exact ih.1 h
    · intro hmem
      rcases List.mem_append.mp hmem with h | h
      · exact (escapeChar_no_angle c).2 h
      · exact ih.2 h

/-- C6: escaping happens before any markdown substitution, escaping emits no
angle bracket, and consequently every `<` in the converter's output begins
one of the converter's own four tags — no markup from the original text
survives unescaped; in particular a `<script>` tag is rendered inert. -/
theorem markdown_escape_before_markup :
    (∀ t, markdown_inline_to_html t =
      reSub star1 emOpen emClose
        (reSub star2 bOpen bClose (reSub star3 biOpen biClose (htmlEscape t)))) ∧
    (∀ t, '<' ∉ htmlEscape t ∧ '>' ∉ htmlEscape t) ∧
    (∀ t, ltSafe (markdown_inline_to_html t) = true) ∧
    markdown_inline_to_html ("<script>alert(1)</script>".toList) =
      "&lt;script&gt;alert(1)&lt;/script&gt;".toList := by
  refine ⟨fun _ => rfl, htmlEscape_no_angle, ?_, rfl⟩
  intro t
  have h0 : ltSafe (htmlEscape t) = true :=
    ltSafe_of_nolt (fun c hc e => (htmlEscape_no_angle t).1 (e ▸ hc))
  have h1 : ltSafe (reSub star3 biOpen biClose (htmlEscape t)) = true :=
    ltSafe_reSub star3 biOpen biClose (by decide) (by decide) (by decide) (by decide) _ h0
  have h2 : ltSafe (reSub star2 bOpen bClose (reSub star3 biOpen biClose (htmlEscape t))) = true :=
    ltSafe_reSub star2 bOpen bClose (by decide) (by decide) (by decide) (by decide) _ h1
  exact ltSafe_reSub star1 emOpen emClose (by decide) (by decide) (by decide) (by decide) _ h2

end Extrator
